import Mathlib

/-!
# Verification of the `lattpy` Bravais-lattice core

Shallow embedding of `src/lattpy/base.py` (class `BravaisLattice`) and of the
helpers it imports from the repository's `utils` module (`vrange`, `distance`,
`cell_volume`, `ConfigurationError`), whose source file is not part of the
provided sources and is therefore modelled from the specification.

Numeric domains:
* Lattice/basis data and positions are modelled over `ℚ` (floating-point
  values are rationals; the core algorithms only add, multiply and compare).
* Euclidean distances are real numbers (`Real.sqrt`), and `np.round(x, 5)` is
  modelled exactly as round-half-to-even on reals producing a rational with
  denominator dividing `10^5`.
* The reciprocal-vector computation involves `π` and `√3`, so it is modelled
  separately over real matrices.

Stateful methods that can raise (`calculate_distances`, `add_atom`,
`get_neighbours`, `get_neighbour_vectors`) are modelled as functions returning
`Except` values; where the claim under scrutiny concerns partial mutation, the
method additionally returns the state as of the raise point.
-/

namespace LattPy

/-- Modelled from the spec: `utils.vrange` (source file absent from `src/`).
Spec §4.3 step 4: "Enumerate every integer translation vector whose
coordinates range over [the given per-dimension ranges]": the cartesian
product of the per-dimension ranges, first axis slowest, as produced by
iterating the ranges in nested loops. -/
def vrange {α : Type} : List (List α) → List (List α)
  | [] => [[]]
  | r :: rs => r.flatMap fun x => (vrange rs).map fun v => x :: v

/-- `np.arange(lo, hi)` on integer arguments: `[lo, lo+1, ..., hi-1]`
(the upper endpoint is excluded). -/
def arange (lo hi : ℤ) : List ℤ :=
  (List.range (hi - lo).toNat).map fun k : ℕ => lo + (k : ℤ)

open Classical in
/-- Round a real to the nearest integer, ties to even: the rounding mode of
`np.round` (idealised to exact real arithmetic). -/
noncomputable def roundHalfEven (x : ℝ) : ℤ :=
  if x - ⌊x⌋ = (1 : ℝ) / 2 then (if Even ⌊x⌋ then ⌊x⌋ else ⌊x⌋ + 1) else round x

/-- `np.round(x, decimals=5)` on exact reals: scale by `10^5`, round half to
even, scale back.  The result is the rational the float approximates. -/
noncomputable def round5 (x : ℝ) : ℚ :=
  (roundHalfEven (x * 100000) : ℚ) / 100000

/-- Modelled from the spec: `utils.distance` (source file absent from `src/`).
Spec §4.4: "compute its Euclidean distance".  Positions are rational vectors;
the distance is the real Euclidean norm of the difference. -/
noncomputable def distance {dim : ℕ} (r1 r2 : Fin dim → ℚ) : ℝ :=
  Real.sqrt (∑ i, (((r1 i - r2 i : ℚ) : ℝ)) ^ 2)

/-- Errors raised by the lattice core: `ConfigurationError` (modelled from the
spec: defined in the absent `utils` module; "Carries a human-readable hint
naming the missing setup step", spec §7) and Python's built-in `ValueError`.
String payloads reproduce the source messages (the source interpolates the
offending position into the duplicate-position message and quotes method
names; the quoting is omitted here). -/
inductive LatticeError
  | configurationError (msg hint : String)
  | valueError (msg : String)
deriving DecidableEq

/-- `Atom`: only the tag data relevant to the verified claims (the global
name counter, color, size and kwargs of the source are plotting metadata). -/
structure Atom where
  name : String
deriving DecidableEq

/-- State of `BravaisLattice` (`base.py` lines 44-67).  `cell_size`,
`cell_volume` and `origin` are omitted: they are not read by any of the
methods verified here over `ℚ` (the reciprocal-vector computation, which does
read `cell_volume`, is modelled separately over `ℝ` below).  The leading
underscore of `_vectors_inv` and `_base_neighbors` is dropped. -/
structure Lattice (dim : ℕ) where
  vectors : Matrix (Fin dim) (Fin dim) ℚ
  vectors_inv : Matrix (Fin dim) (Fin dim) ℚ
  atoms : List Atom
  atom_positions : List (Fin dim → ℚ)
  n_base : ℕ
  n_dist : ℕ
  distances : List ℚ
  base_neighbors : List (List (List (List ℤ)))

namespace Lattice

variable {dim : ℕ}

/-- `BravaisLattice.translate` (lines 154-168): `r + vectors @ nvec`. -/
def translate (l : Lattice dim) (nvec : Fin dim → ℚ) (r : Fin dim → ℚ) :
    Fin dim → ℚ :=
  r + l.vectors.mulVec nvec

/-- `BravaisLattice.itranslate` (lines 170-188): solve with the precomputed
inverse, floor componentwise (`np.floor`; the resulting float vector is
integer-valued, typed `ℤ` here), and return the remainder. -/
def itranslate (l : Lattice dim) (v : Fin dim → ℚ) :
    (Fin dim → ℤ) × (Fin dim → ℚ) :=
  let itrans := l.vectors_inv.mulVec v
  let nvec : Fin dim → ℤ := fun i => ⌊itrans i⌋
  (nvec, v - l.translate (fun i => (nvec i : ℚ)) 0)

/-- `BravaisLattice.get_position` (lines 207-225).  Out-of-range atom indices
raise `IndexError` in the source; the claims only exercise in-range indices,
modelled by `getD`. -/
def get_position (l : Lattice dim) (n : Option (Fin dim → ℚ)) (alpha : ℕ) :
    Fin dim → ℚ :=
  let r := l.atom_positions.getD alpha (fun _ => 0)
  match n with
  | none => r
  | some nvec => r + l.vectors.mulVec nvec

end Lattice

/-- `BravaisLattice.DIST_DECIMALS = 5` is baked into `round5`;
`MIN_DISTS = 3` (line 47). -/
def MIN_DISTS : ℕ := 3

/-- The search bound `n` of `calculate_distances` (lines 337-338):
`n = num_dist + 1` clamped below by `MIN_DISTS`. -/
def n_expand (num_dist : ℕ) : ℕ := max (num_dist + 1) MIN_DISTS

/-- Interpret a translation vector given as a list (one coordinate per
dimension, as produced by `vrange`) as a rational vector. -/
def list_to_vec (dim : ℕ) (v : List ℤ) : Fin dim → ℚ :=
  fun i => ((v.getD i 0 : ℤ) : ℚ)

namespace Lattice

variable {dim : ℕ}

/-- The candidate translation vectors of `calculate_distances` (line 339):
`vrange(dim * [np.arange(-n, n)])`. -/
def n_vecs_of (dim n : ℕ) : List (List ℤ) :=
  vrange (List.replicate dim (arange (-(n : ℤ)) (n : ℤ)))

/-- The candidate image positions of `calculate_distances` (lines 340-343):
every atom of the basis translated by every candidate vector. -/
def r_vecs_of (l : Lattice dim) (n : ℕ) : List (Fin dim → ℚ) :=
  (n_vecs_of dim n).flatMap fun nvec =>
    (List.range l.n_base).map fun alpha =>
      l.get_position (some (list_to_vec dim nvec)) alpha

/-- `itertools.product(r_vecs, self.atom_positions)` (line 344). -/
def pairs_of (l : Lattice dim) (n : ℕ) : List ((Fin dim → ℚ) × (Fin dim → ℚ)) :=
  (r_vecs_of l n).flatMap fun r1 => l.atom_positions.map fun r2 => (r1, r2)

/-- The rounded pairwise distances of `calculate_distances` (line 345),
before deduplication. -/
noncomputable def rounded_dists (l : Lattice dim) (n : ℕ) : List ℚ :=
  (pairs_of l n).map fun p => round5 (distance p.1 p.2)

/-- `list(set(...))` followed by `.sort()` (lines 345-346): the distinct
rounded distances in ascending order. -/
noncomputable def sorted_dists (l : Lattice dim) (n : ℕ) : List ℚ :=
  ((rounded_dists l n).dedup).insertionSort (· ≤ ·)

/-- The candidate lattice indices of `_neighbour_range` (lines 261-280): the
per-dimension ranges `np.arange(n[d] - offset, n[d] + offset + 1)` with
`offset = cell_range + 2`, crossed with every atom index of the basis,
yielding `(translation vector, atom index)` pairs. -/
def neighbour_range (dim n_base : ℕ) (n : List ℤ) (cell_range : ℕ) :
    List (List ℤ × ℕ) :=
  let offset : ℤ := (cell_range : ℤ) + 2
  let ranges := (List.range dim).map fun d =>
    arange (n.getD d 0 - offset) (n.getD d 0 + offset + 1)
  (vrange ranges).flatMap fun v => (List.range n_base).map fun alpha => (v, alpha)

/-- `BravaisLattice.calculate_neighbours` (lines 282-311) with `array=True`:
keep the candidates whose distance to the origin site matches the shell
distance after rounding, flattened to `[*nvec, alpha]`.  The source's
append-inside-loop over the filtered candidates is a `filterMap`. -/
noncomputable def calculate_neighbours (l : Lattice dim) (n : List ℤ)
    (alpha : ℕ) (dist_idx : ℕ) : List (List ℤ) :=
  let dist := l.distances.getD dist_idx 0
  let pos0 := l.get_position (some (list_to_vec dim n)) alpha
  (neighbour_range dim l.n_base n dist_idx).filterMap fun c =>
    let pos1 := l.get_position (some (list_to_vec dim c.1)) c.2
    if round5 |distance pos0 pos1 - (dist : ℝ)| = 0 then
      some (c.1 ++ [(c.2 : ℤ)])
    else none

/-- `BravaisLattice.calculate_distances` (lines 313-359).  The Python
`distances.remove(0.0)` raises `ValueError` when `0.0` is absent; that
fallibility is modelled by the inner branch. -/
noncomputable def calculate_distances (l : Lattice dim) (num_dist : Option ℕ) :
    Except LatticeError (Lattice dim) :=
  if l.atoms = [] then
    .error (.configurationError "No atoms found in the lattice!"
      "Use add_atom to add an Atom-object")
  else
    let nd := num_dist.getD l.atoms.length
    let n := n_expand nd
    let sorted := sorted_dists l n
    if (0 : ℚ) ∈ sorted then
      let ds := (sorted.erase 0).take (n - 1)
      let l' := { l with distances := ds, n_dist := nd }
      .ok { l' with
            base_neighbors :=
              (List.range l'.n_base).map fun alpha =>
                (List.range ds.length).map fun i_dist =>
                  calculate_neighbours l' (List.replicate dim 0) alpha i_dist }
    else
      .error (.valueError "list.remove(x): x not in list")

/-- `BravaisLattice.add_atom` (lines 361-392).  The result pairs the state as
of the return/raise point with the outcome, so that partial mutation (or its
absence) is visible.  The atom argument stands for an already-constructed
`Atom` (the string-to-`Atom` conversion and the global name counter are
plotting metadata). -/
noncomputable def add_atom (l : Lattice dim) (pos : Fin dim → ℚ) (atom : Atom)
    (neighbours : ℕ) : Lattice dim × Except LatticeError Atom :=
  if pos ∈ l.atom_positions then
    (l, .error (.valueError "Position already occupied!"))
  else
    let l' := { l with atoms := l.atoms ++ [atom],
                       atom_positions := l.atom_positions ++ [pos] }
    let l'' := { l' with n_base := l'.atom_positions.length }
    if neighbours ≠ 0 then
      match calculate_distances l'' (some neighbours) with
      | .ok l3 => (l3, .ok atom)
      | .error e => (l'', .error e)
    else (l'', .ok atom)

/-- `BravaisLattice.get_neighbours` (lines 394-418).  Each stored entry is
copied (`idx.copy()`) before the caller's translation is added, so the state
component of the result is the unchanged lattice.  Out-of-range `alpha` or
`dist_idx` raise `IndexError` in the source; the claims only exercise
in-range indices, modelled by `getD`. -/
def get_neighbours (l : Lattice dim) (idx : List ℤ) (dist_idx : ℕ) :
    Lattice dim × Except LatticeError (List (List ℤ)) :=
  if l.base_neighbors = [] then
    (l, .error (.configurationError "Base neighbours not configured."
      "Use the neighbours keyword of add_atom or call calculate_distances after adding the atoms!"))
  else
    let n := idx.dropLast
    let alpha := (idx.getLastD 0).toNat
    let entries := (l.base_neighbors.getD alpha []).getD dist_idx []
    let transformed := entries.map fun e =>
      (e.dropLast.zipWith (· + ·) n) ++ [e.getLastD 0]
    (l, .ok transformed)

/-- `BravaisLattice.get_neighbour_vectors` (lines 420-447). -/
def get_neighbour_vectors (l : Lattice dim) (alpha : ℕ) (dist_idx : ℕ)
    (include_zero : Bool) : Except LatticeError (List (Fin dim → ℚ)) :=
  if l.base_neighbors = [] then
    .error (.configurationError "Base neighbours not configured."
      "Use the neighbours keyword of add_atom or call calculate_distances after adding the atoms!")
  else
    let pos0 := l.atom_positions.getD alpha (fun _ => 0)
    let rest := ((l.base_neighbors.getD alpha []).getD dist_idx []).map fun idx =>
      l.get_position (some (list_to_vec dim (idx.dropLast))) (idx.getLastD 0).toNat - pos0
    .ok ((if include_zero then [fun _ => (0 : ℚ)] else []) ++ rest)

/-- Basic state consistency maintained by the `BravaisLattice` API:
the three basis fields describe the same number of atoms. -/
def Wf (l : Lattice dim) : Prop :=
  l.n_base = l.atom_positions.length ∧ l.atoms.length = l.atom_positions.length

instance (l : Lattice dim) : Decidable l.Wf := by
  unfold Wf; infer_instance

end Lattice

/-- `BravaisLattice.chain(a=1.0)` followed by `add_atom()` (atom at the cell
origin): the one-dimensional chain with unit spacing. -/
def chain_latt : Lattice 1 where
  vectors := Matrix.of fun _ _ => (1 : ℚ)
  vectors_inv := Matrix.of fun _ _ => (1 : ℚ)
  atoms := [{ name := "A" }]
  atom_positions := [fun _ => 0]
  n_base := 1
  n_dist := 0
  distances := []
  base_neighbors := []

/-- `BravaisLattice.chain(a=1.0)` with no atoms added yet. -/
def empty_chain_latt : Lattice 1 where
  vectors := Matrix.of fun _ _ => (1 : ℚ)
  vectors_inv := Matrix.of fun _ _ => (1 : ℚ)
  atoms := []
  atom_positions := []
  n_base := 0
  n_dist := 0
  distances := []
  base_neighbors := []

/-!
## Reciprocal vectors (real-valued: they involve `π`, and `√3` for the
hexagonal basis)
-/

/-- The 3D embedding of `reciprocal_vectors` (lines 131-133):
`vecs = np.eye(3); vecs[:dim, :dim] = self.vectors`. -/
noncomputable def embed3 {d : ℕ} (M : Matrix (Fin d) (Fin d) ℝ) :
    Matrix (Fin 3) (Fin 3) ℝ :=
  Matrix.of fun i j =>
    if hi : (i : ℕ) < d then
      (if hj : (j : ℕ) < d then M ⟨i, hi⟩ ⟨j, hj⟩ else 0)
    else (if (i : ℕ) = (j : ℕ) then 1 else 0)

/-- `np.cross` on 3-vectors. -/
def cross (u v : Fin 3 → ℝ) : Fin 3 → ℝ :=
  ![u 1 * v 2 - u 2 * v 1, u 2 * v 0 - u 0 * v 2, u 0 * v 1 - u 1 * v 0]

/-- Modelled from the spec: `utils.cell_volume` (source file absent from
`src/`).  The volume of the unit cell spanned by the basis vectors — length
for `dim = 1`, area for `dim = 2`, volume for `dim = 3` — i.e. the absolute
determinant (the sign-free value is fixed by the repository's own
`test_reciprocal_vectors` expected values for the hexagonal basis, whose
determinant is negative). -/
noncomputable def cell_volume {d : ℕ} (M : Matrix (Fin d) (Fin d) ℝ) : ℝ :=
  |M.det|

/-- The `BravaisLattice.__init__` conversion (line 50): the stored basis
matrix is the transpose of the constructor argument. -/
def mk_vectors {d : ℕ} (input : Matrix (Fin d) (Fin d) ℝ) :
    Matrix (Fin d) (Fin d) ℝ :=
  input.transpose

/-- `BravaisLattice.reciprocal_vectors` (lines 124-142): embed the stored
basis in 3D, take the cross-product reciprocal triple scaled by
`2π / cell_volume`, and restrict back to `dim` dimensions.  (The source
unpacks exactly three rows, so it requires `dim ≤ 3`; the `% 3` in the
restriction is inert for those dimensions.) -/
noncomputable def reciprocal_vectors {d : ℕ} (M : Matrix (Fin d) (Fin d) ℝ) :
    Matrix (Fin d) (Fin d) ℝ :=
  let vecs := embed3 M
  let a1 : Fin 3 → ℝ := fun j => vecs 0 j
  let a2 : Fin 3 → ℝ := fun j => vecs 1 j
  let a3 : Fin 3 → ℝ := fun j => vecs 2 j
  let factor := 2 * Real.pi / cell_volume M
  let rvecs : Fin 3 → Fin 3 → ℝ :=
    ![fun j => factor * cross a2 a3 j,
      fun j => factor * cross a3 a1 j,
      fun j => factor * cross a1 a2 j]
  Matrix.of fun i j =>
    rvecs ⟨(i : ℕ) % 3, Nat.mod_lt _ (by norm_num)⟩
          ⟨(j : ℕ) % 3, Nat.mod_lt _ (by norm_num)⟩

/-- The stored basis of `BravaisLattice.reciprocal_lattice` (lines 144-152):
the new lattice is constructed from `reciprocal_vectors().T`, and the
constructor transposes again.  (The distance recomputation the source
performs for a non-empty atomic basis does not touch the basis vectors.) -/
noncomputable def reciprocal_lattice_vectors {d : ℕ}
    (M : Matrix (Fin d) (Fin d) ℝ) : Matrix (Fin d) (Fin d) ℝ :=
  mk_vectors (reciprocal_vectors M).transpose

/-- Stored basis of `BravaisLattice.chain(a)`. -/
noncomputable def chain_vectors (a : ℝ) : Matrix (Fin 1) (Fin 1) ℝ :=
  mk_vectors !![a]

/-- Stored basis of `BravaisLattice.square(a)`: `a * np.eye(2)`. -/
noncomputable def square_vectors (a : ℝ) : Matrix (Fin 2) (Fin 2) ℝ :=
  mk_vectors !![a, 0; 0, a]

/-- Stored basis of `BravaisLattice.rectangular(a1, a2)`. -/
noncomputable def rectangular_vectors (a1 a2 : ℝ) : Matrix (Fin 2) (Fin 2) ℝ :=
  mk_vectors !![a1, 0; 0, a2]

/-- Stored basis of `BravaisLattice.hexagonal(a)`:
`a/2 * [[3, √3], [3, -√3]]`. -/
noncomputable def hexagonal_vectors (a : ℝ) : Matrix (Fin 2) (Fin 2) ℝ :=
  mk_vectors ((a / 2) • !![3, Real.sqrt 3; 3, -(Real.sqrt 3)])

/-!
## Helper lemmas
-/

/-- Membership in `arange`: exactly the integers of the half-open
interval `[lo, hi)`. -/
theorem mem_arange {lo hi x : ℤ} : x ∈ arange lo hi ↔ lo ≤ x ∧ x < hi := by
  constructor
  · intro hx
    unfold arange at hx
    rcases List.mem_map.mp hx with ⟨k, hk, rfl⟩
    rw [List.mem_range] at hk
    have : (k : ℤ) < ((hi - lo).toNat : ℤ) := by exact_mod_cast hk
    omega
  · rintro ⟨h1, h2⟩
    unfold arange
    refine List.mem_map.mpr ⟨(x - lo).toNat, List.mem_range.mpr ?_, ?_⟩
    · omega
    · omega

/-- Membership in `vrange`: componentwise membership in the given ranges. -/
theorem mem_vrange {α : Type} {rs : List (List α)} {v : List α} :
    v ∈ vrange rs ↔ List.Forall₂ (fun x r => x ∈ r) v rs := by
  induction rs generalizing v with
  | nil =>
    simp only [vrange, List.mem_singleton]
    constructor
    · rintro rfl; exact List.Forall₂.nil
    · intro h; cases h; rfl
  | cons r rs ih =>
    simp only [vrange, List.mem_flatMap, List.mem_map]
    constructor
    · rintro ⟨x, hx, t, ht, rfl⟩
      exact List.Forall₂.cons hx (ih.mp ht)
    · intro h
      cases h with
      | cons hx ht => exact ⟨_, hx, _, ih.mpr ht, rfl⟩

/-- Membership in `vrange` of `dim` copies of one range. -/
theorem mem_vrange_replicate {α : Type} {r : List α} {d : ℕ} {v : List α} :
    v ∈ vrange (List.replicate d r) ↔ v.length = d ∧ ∀ x ∈ v, x ∈ r := by
  rw [mem_vrange]
  induction d generalizing v with
  | zero =>
    constructor
    · intro h; cases h; simp
    · rintro ⟨h, -⟩
      rw [List.length_eq_zero] at h
      subst h; exact List.Forall₂.nil
  | succ d ih =>
    constructor
    · intro h
      cases h with
      | cons hx ht =>
        rcases ih.mp ht with ⟨hl, hall⟩
        refine ⟨by simp [hl], ?_⟩
        intro y hy
        rcases List.mem_cons.mp hy with rfl | hy
        · exact hx
        · exact hall y hy
    · rintro ⟨hl, hall⟩
      cases v with
      | nil => simp at hl
      | cons x t =>
        refine List.Forall₂.cons (hall x (by simp)) (ih.mpr ⟨by simpa using hl, ?_⟩)
        intro y hy; exact hall y (List.mem_cons_of_mem _ hy)

theorem roundHalfEven_intCast (m : ℤ) : roundHalfEven (m : ℝ) = m := by
  unfold roundHalfEven
  rw [Int.floor_intCast]
  rw [if_neg (by norm_num)]
  exact round_intCast m

theorem roundHalfEven_nonneg {x : ℝ} (hx : 0 ≤ x) : 0 ≤ roundHalfEven x := by
  unfold roundHalfEven
  have hfl : 0 ≤ ⌊x⌋ := Int.floor_nonneg.mpr hx
  split
  · split
    · exact hfl
    · omega
  · rw [round_eq]
    exact Int.floor_nonneg.mpr (by linarith)

theorem round5_intCast (m : ℤ) : round5 (m : ℝ) = (m : ℚ) := by
  unfold round5
  have : (m : ℝ) * 100000 = ((m * 100000 : ℤ) : ℝ) := by push_cast; ring
  rw [this, roundHalfEven_intCast]
  push_cast
  field_simp

theorem round5_nonneg {x : ℝ} (hx : 0 ≤ x) : 0 ≤ round5 x := by
  unfold round5
  have := roundHalfEven_nonneg (mul_nonneg hx (by norm_num : (0:ℝ) ≤ 100000))
  positivity

theorem round5_zero : round5 0 = 0 := by
  have h := round5_intCast 0
  norm_num at h
  exact h

theorem distance_nonneg {dim : ℕ} (r1 r2 : Fin dim → ℚ) : 0 ≤ distance r1 r2 :=
  Real.sqrt_nonneg _

theorem distance_self {dim : ℕ} (r : Fin dim → ℚ) : distance r r = 0 := by
  unfold distance
  simp

/-- One-dimensional Euclidean distance is the absolute difference. -/
theorem distance_fin_one (r1 r2 : Fin 1 → ℚ) :
    distance r1 r2 = |((r1 0 - r2 0 : ℚ) : ℝ)| := by
  unfold distance
  rw [Fin.sum_univ_one, Real.sqrt_sq_eq_abs]

/-- Every element of the rounded distance list is nonnegative. -/
theorem mem_rounded_dists_nonneg {dim : ℕ} {l : Lattice dim} {n : ℕ} {q : ℚ}
    (hq : q ∈ l.rounded_dists n) : 0 ≤ q := by
  unfold Lattice.rounded_dists at hq
  rcases List.mem_map.mp hq with ⟨p, -, rfl⟩
  exact round5_nonneg (distance_nonneg _ _)

/-- The sorted distinct distance list is sorted. -/
theorem sorted_dists_sorted {dim : ℕ} (l : Lattice dim) (n : ℕ) :
    List.Sorted (· ≤ ·) (l.sorted_dists n) :=
  List.sorted_insertionSort _ _

/-- The sorted distinct distance list has no duplicates. -/
theorem sorted_dists_nodup {dim : ℕ} (l : Lattice dim) (n : ℕ) :
    (l.sorted_dists n).Nodup :=
  (List.perm_insertionSort _ _).nodup_iff.mpr (List.nodup_dedup _)

/-- The sorted distinct distance list is strictly increasing. -/
theorem sorted_dists_pairwise_lt {dim : ℕ} (l : Lattice dim) (n : ℕ) :
    (l.sorted_dists n).Pairwise (· < ·) :=
  ((sorted_dists_sorted l n).and (sorted_dists_nodup l n)).imp
    fun h => lt_of_le_of_ne h.1 h.2

theorem mem_sorted_dists {dim : ℕ} {l : Lattice dim} {n : ℕ} {q : ℚ} :
    q ∈ l.sorted_dists n ↔ q ∈ l.rounded_dists n := by
  unfold Lattice.sorted_dists
  rw [(List.perm_insertionSort _ _).mem_iff, List.mem_dedup]

/-- Unfolding `calculate_distances` on success: the stored shell list is the
`erase`/`take` slice of the sorted distinct distances, and the shell count is
recorded. -/
theorem calculate_distances_ok_distances {dim : ℕ} {l : Lattice dim}
    {num : Option ℕ} {l' : Lattice dim}
    (h : l.calculate_distances num = .ok l') :
    l'.distances = ((l.sorted_dists (n_expand (num.getD l.atoms.length))).erase 0).take
      (n_expand (num.getD l.atoms.length) - 1) := by
  unfold Lattice.calculate_distances at h
  split at h
  · cases h
  · dsimp only at h
    split at h
    · cases h
      rfl
    · cases h

/-- On success the distances are drawn from the sorted distinct list with the
zero entry removed: strictly increasing and strictly positive. -/
theorem calculate_distances_ok_pairwise {dim : ℕ} {l : Lattice dim}
    {num : Option ℕ} {l' : Lattice dim}
    (h : l.calculate_distances num = .ok l') :
    l'.distances.Pairwise (· < ·) ∧ ∀ q ∈ l'.distances, 0 < q := by
  rw [calculate_distances_ok_distances h]
  set n := n_expand (num.getD l.atoms.length) with hn
  constructor
  · exact ((sorted_dists_pairwise_lt l n).sublist
      (List.erase_sublist 0 _)).sublist (List.take_sublist _ _)
  · intro q hq
    have hq1 : q ∈ (l.sorted_dists n).erase 0 :=
      (List.take_sublist _ _).mem hq
    have hq2 : q ≠ 0 ∧ q ∈ l.sorted_dists n :=
      ((sorted_dists_nodup l n).mem_erase_iff).mp hq1
    have hq3 : 0 ≤ q :=
      mem_rounded_dists_nonneg (mem_sorted_dists.mp hq2.2)
    exact lt_of_le_of_ne hq3 (Ne.symm hq2.1)

/-- The zero translation vector is always among the enumerated candidates. -/
theorem zero_mem_n_vecs {dim n : ℕ} (hn : 0 < n) :
    List.replicate dim (0 : ℤ) ∈ Lattice.n_vecs_of dim n := by
  unfold Lattice.n_vecs_of
  rw [mem_vrange_replicate]
  refine ⟨List.length_replicate _ _, fun x hx => ?_⟩
  rw [List.eq_of_mem_replicate hx, mem_arange]
  omega

/-- The zero translation vector denotes the zero rational vector. -/
theorem list_to_vec_replicate_zero (dim : ℕ) :
    list_to_vec dim (List.replicate dim (0 : ℤ)) = 0 := by
  funext i
  unfold list_to_vec
  rcases Nat.lt_or_ge i dim with h | h
  · rw [List.getD_eq_getElem _ _ (by simpa using h)]
    simp
  · rw [List.getD_eq_default _ _ (by simpa using h)]
    simp

/-- For a well-formed lattice with a non-empty basis, the first basis
position occurs among the candidate image positions. -/
theorem first_pos_mem_r_vecs {dim : ℕ} {l : Lattice dim} {n : ℕ}
    (hwf : l.Wf) (hne : l.atoms ≠ []) (hn : 0 < n) :
    l.atom_positions.getD 0 (fun _ => 0) ∈ l.r_vecs_of n := by
  unfold Lattice.r_vecs_of
  rw [List.mem_flatMap]
  refine ⟨List.replicate dim 0, zero_mem_n_vecs hn, ?_⟩
  rw [List.mem_map]
  refine ⟨0, ?_, ?_⟩
  · rw [List.mem_range, hwf.1]
    have : l.atom_positions.length ≠ 0 := by
      intro h0
      exact hne (List.length_eq_zero.mp (hwf.2.trans h0))
    omega
  · simp only [Lattice.get_position, list_to_vec_replicate_zero,
      Matrix.mulVec_zero, add_zero]

/-- For a well-formed lattice with a non-empty basis, the zero distance
occurs among the rounded pairwise distances (every basis atom is paired with
its own image at the zero translation). -/
theorem zero_mem_rounded_dists {dim : ℕ} {l : Lattice dim} {n : ℕ}
    (hwf : l.Wf) (hne : l.atoms ≠ []) (hn : 0 < n) :
    (0 : ℚ) ∈ l.rounded_dists n := by
  have hlen : l.atom_positions.length ≠ 0 := by
    intro h0
    exact hne (List.length_eq_zero.mp (hwf.2.trans h0))
  have hp0 : l.atom_positions.getD 0 (fun _ => 0) ∈ l.atom_positions := by
    rw [List.getD_eq_getElem _ _ (by omega)]
    exact List.getElem_mem _
  unfold Lattice.rounded_dists
  rw [List.mem_map]
  refine ⟨(l.atom_positions.getD 0 (fun _ => 0),
           l.atom_positions.getD 0 (fun _ => 0)), ?_, ?_⟩
  · unfold Lattice.pairs_of
    rw [List.mem_flatMap]
    exact ⟨_, first_pos_mem_r_vecs hwf hne hn,
      List.mem_map.mpr ⟨_, hp0, rfl⟩⟩
  · rw [distance_self, round5_zero]

/-- For a well-formed lattice with a non-empty basis, `calculate_distances`
runs to completion. -/
theorem calculate_distances_isOk {dim : ℕ} {l : Lattice dim}
    (num : Option ℕ) (hwf : l.Wf) (hne : l.atoms ≠ []) :
    ∃ l', l.calculate_distances num = .ok l' := by
  unfold Lattice.calculate_distances
  rw [if_neg hne]
  have h0 : (0 : ℚ) ∈ l.sorted_dists (n_expand (num.getD l.atoms.length)) :=
    mem_sorted_dists.mpr
      (zero_mem_rounded_dists hwf hne (by unfold n_expand MIN_DISTS; omega))
  rw [if_pos h0]
  exact ⟨_, rfl⟩

/-- The reciprocal basis of a one-dimensional lattice: `2π / |a|`. -/
theorem reciprocal_fin_one (M : Matrix (Fin 1) (Fin 1) ℝ) :
    reciprocal_vectors M = !![2 * Real.pi / |M.det|] := by
  unfold reciprocal_vectors cell_volume
  ext i j
  fin_cases i
  fin_cases j
  simp [embed3, cross, Matrix.det_fin_one]

/-- The reciprocal basis of a two-dimensional lattice: the adjugate-transpose
scaled by `2π / |det|`. -/
theorem reciprocal_fin_two (M : Matrix (Fin 2) (Fin 2) ℝ) :
    reciprocal_vectors M =
      (2 * Real.pi / |M.det|) • !![M 1 1, -(M 1 0); -(M 0 1), M 0 0] := by
  unfold reciprocal_vectors cell_volume
  ext i j
  fin_cases i <;> fin_cases j <;>
    simp [embed3, cross, Matrix.smul_apply] <;> ring

/-- Double application of `reciprocal_vectors` is the identity on
one-dimensional bases with positive entry. -/
theorem double_reciprocal_fin_one (M : Matrix (Fin 1) (Fin 1) ℝ)
    (h : 0 < M 0 0) : reciprocal_vectors (reciprocal_vectors M) = M := by
  rw [reciprocal_fin_one, reciprocal_fin_one]
  have hπ := Real.pi_pos
  have hdet : |M.det| = M 0 0 := by
    rw [Matrix.det_fin_one, abs_of_pos h]
  rw [hdet]
  have hpos : 0 < 2 * Real.pi / M 0 0 := by positivity
  have hM0 : M 0 0 ≠ 0 := ne_of_gt h
  ext i j
  fin_cases i
  fin_cases j
  simp only [Matrix.det_fin_one, Matrix.cons_val', Matrix.cons_val_zero,
    Matrix.empty_val', Matrix.cons_val_fin_one, Matrix.of_apply]
  show 2 * Real.pi / |2 * Real.pi / M 0 0| = M 0 0
  rw [abs_of_pos hpos]
  field_simp

/-- Double application of `reciprocal_vectors` is the identity on
two-dimensional bases with nonzero determinant (for either determinant
sign: the restriction to the upper-left block and re-embedding with the
third unit vector absorbs the orientation). -/
theorem double_reciprocal_fin_two (M : Matrix (Fin 2) (Fin 2) ℝ)
    (h : M.det ≠ 0) : reciprocal_vectors (reciprocal_vectors M) = M := by
  have hπ := Real.pi_pos
  have hd : 0 < |M.det| := abs_pos.mpr h
  rw [reciprocal_fin_two M]
  set c := 2 * Real.pi / |M.det| with hc
  set N : Matrix (Fin 2) (Fin 2) ℝ := !![M 1 1, -(M 1 0); -(M 0 1), M 0 0]
    with hN
  have hcpos : 0 < c := by positivity
  rw [reciprocal_fin_two (c • N)]
  have hinner :
      (!![(c • N) 1 1, -((c • N) 1 0); -((c • N) 0 1), (c • N) 0 0] :
        Matrix (Fin 2) (Fin 2) ℝ) = c • M := by
    rw [hN]
    ext i j
    fin_cases i <;> fin_cases j <;> simp [Matrix.smul_apply]
  have hdet2 : (c • N).det = c ^ 2 * M.det := by
    rw [hN]
    simp only [Matrix.det_fin_two, Matrix.smul_apply, smul_eq_mul,
      Matrix.of_apply, Matrix.cons_val', Matrix.cons_val_zero,
      Matrix.cons_val_one, Matrix.head_cons, Matrix.head_fin_const,
      Matrix.empty_val', Matrix.cons_val_fin_one]
    ring
  have hdne : |M.det| ≠ 0 := ne_of_gt hd
  have hpne : Real.pi ≠ 0 := Real.pi_ne_zero
  have hone : 2 * Real.pi / |(c • N).det| * c = 1 := by
    rw [hdet2, abs_mul, abs_pow, abs_of_pos hcpos, hc]
    field_simp
    rw [mul_assoc ((2 * Real.pi) ^ 2), abs_mul_abs_self]
    ring
  rw [hinner, smul_smul, hone, one_smul]

/-!
## Concrete evaluation on the unit chain lattice
-/

theorem chain_n_vecs :
    Lattice.n_vecs_of 1 3 = [[-3], [-2], [-1], [0], [1], [2]] := by
  decide

theorem chain_get_position (w : Fin 1 → ℚ) (a : ℕ) :
    chain_latt.get_position (some w) a = fun _ => w 0 := by
  funext i
  unfold Lattice.get_position chain_latt
  cases a <;>
    simp [Matrix.mulVec, Matrix.dotProduct, Fin.sum_univ_one]

theorem round5_dist1 (c : ℚ) (m : ℤ) (h : |c| = (m : ℚ)) :
    round5 (distance (fun _ : Fin 1 => c) (fun _ => 0)) = (m : ℚ) := by
  rw [distance_fin_one]
  have hc : |((c - 0 : ℚ) : ℝ)| = ((m : ℤ) : ℝ) := by
    rw [sub_zero, ← Rat.cast_abs, h]
    push_cast
    ring
  rw [hc, round5_intCast]

theorem chain_rounded :
    chain_latt.rounded_dists 3 = [3, 2, 1, 0, 1, 2] := by
  unfold Lattice.rounded_dists Lattice.pairs_of Lattice.r_vecs_of
  rw [chain_n_vecs]
  simp only [List.flatMap_cons, List.flatMap_nil, List.map_cons, List.map_nil,
    List.range_succ, List.range_zero, List.nil_append, chain_get_position,
    List.append_nil, list_to_vec, Fin.val_zero, List.getD_cons_zero,
    Int.cast_neg, Int.cast_ofNat, Int.cast_zero, Int.cast_one]
  unfold chain_latt
  simp only [show List.range 1 = [0] from rfl, List.map_cons, List.map_nil,
    List.flatMap_cons, List.flatMap_nil, List.append_nil, List.nil_append,
    List.cons_append]
  rw [round5_dist1 (-3) 3 (by norm_num), round5_dist1 (-2) 2 (by norm_num),
      round5_dist1 (-1) 1 (by norm_num), round5_dist1 0 0 (by norm_num),
      round5_dist1 1 1 (by norm_num), round5_dist1 2 2 (by norm_num)]
  norm_num

theorem chain_sorted :
    chain_latt.sorted_dists 3 = [0, 1, 2, 3] := by
  unfold Lattice.sorted_dists
  rw [chain_rounded]
  norm_num [List.dedup_cons_of_mem, List.dedup_cons_of_not_mem,
    List.insertionSort, List.orderedInsert]

theorem chain_calc_dists :
    Except.map Lattice.distances (chain_latt.calculate_distances (some 1)) =
      .ok [1, 2] := by
  unfold Lattice.calculate_distances
  rw [if_neg (by decide : ¬chain_latt.atoms = [])]
  dsimp only
  rw [show n_expand ((some 1).getD chain_latt.atoms.length) = 3 from rfl,
    chain_sorted]
  rw [if_pos (by norm_num : (0 : ℚ) ∈ [0, 1, 2, 3])]
  rw [show (([0, 1, 2, 3] : List ℚ).erase 0) = [1, 2, 3] from
    List.erase_cons_head 0 _]
  rfl

/-!
## Claim theorems
-/

/-- C4: for every lattice whose stored inverse is a left inverse of the basis
matrix (as produced by construction from an invertible basis) and every
integer translation vector `n`, `itranslate(translate(n, 0))` returns exactly
`(n, 0)`. -/
theorem claim_C4 {dim : ℕ} (l : Lattice dim)
    (hinv : l.vectors_inv * l.vectors = 1) (n : Fin dim → ℤ) :
    l.itranslate (l.translate (fun i => (n i : ℚ)) 0) = (n, 0) := by
  unfold Lattice.itranslate Lattice.translate
  have hv : l.vectors_inv.mulVec (0 + l.vectors.mulVec fun i => (n i : ℚ)) =
      fun i => (n i : ℚ) := by
    rw [zero_add, Matrix.mulVec_mulVec, hinv, Matrix.one_mulVec]
  simp only [hv]
  have hfloor : (fun i => ⌊(n i : ℚ)⌋) = n := by
    funext i; exact Int.floor_intCast (n i)
  refine Prod.ext ?_ ?_
  · simpa using hfloor
  · simp only [hfloor]
    ext i
    simp

/-- Witness for C4: the unit chain lattice recovers `n = (5)` exactly. -/
theorem claim_C4_witness :
    chain_latt.itranslate
        (chain_latt.translate (fun i => ((fun _ : Fin 1 => (5 : ℤ)) i : ℚ)) 0) =
      (fun _ => 5, 0) :=
  claim_C4 chain_latt
    (by ext i j; fin_cases i; fin_cases j; simp [chain_latt, Matrix.mul_apply])
    (fun _ => 5)

/-- C2 fails as stated: the hypercube enumerated by `calculate_distances` is
not the inclusive interval `[-n_expand, n_expand]` in each coordinate.  For
`dim = 1`, `num_shells = 1` (so `n_expand = 3`), the vector `[3]` lies in the
claimed range but is not enumerated. -/
theorem claim_C2_counterexample :
    (-(n_expand 1 : ℤ) ≤ 3 ∧ (3 : ℤ) ≤ (n_expand 1 : ℤ)) ∧
      [(3 : ℤ)] ∉ Lattice.n_vecs_of 1 (n_expand 1) := by
  decide

/-- C2 (amended): `calculate_distances(num_shells)` enumerates exactly the
integer vectors whose coordinates range over the half-open interval
`[-n_expand, n_expand - 1]` (NumPy `arange(-n, n)` excludes the upper
endpoint) in each of the `dim` dimensions, with `n_expand =
max(num_shells + 1, 3)`. -/
theorem claim_C2 (dim num_shells : ℕ) (v : List ℤ) :
    v ∈ Lattice.n_vecs_of dim (n_expand num_shells) ↔
      v.length = dim ∧ ∀ x ∈ v,
        -(n_expand num_shells : ℤ) ≤ x ∧ x ≤ (n_expand num_shells : ℤ) - 1 := by
  unfold Lattice.n_vecs_of
  rw [mem_vrange_replicate]
  constructor
  · rintro ⟨hl, hall⟩
    refine ⟨hl, fun x hx => ?_⟩
    have := mem_arange.mp (hall x hx)
    omega
  · rintro ⟨hl, hall⟩
    refine ⟨hl, fun x hx => mem_arange.mpr ?_⟩
    have := hall x hx
    omega

/-- C3 fails as stated: the candidate neighbourhood of
`calculate_neighbours` is bounded by `±(shell_index + 2)`, not
`±(shell_index + 3)`: the `offset` of `_neighbour_range` is
`cell_range + 2` and `calculate_neighbours` passes `cell_range = dist_idx`.
For `dim = 1`, one basis atom, origin `[0]` and shell index `0`, the index
`([3], 0)` lies within the claimed `±3` bound but is not a candidate. -/
theorem claim_C3_counterexample :
    ((0 : ℤ) - (0 + 3) ≤ 3 ∧ (3 : ℤ) ≤ 0 + (0 + 3) ∧ 0 < 1) ∧
      ([(3 : ℤ)], 0) ∉ Lattice.neighbour_range 1 1 [0] 0 := by
  decide

/-- C3 (amended): for every origin index and shell index `i`, the candidates
considered by `calculate_neighbours` are exactly the lattice indices whose
translation vector lies within `±(i + 2)` of the origin's translation
coordinate in each dimension, crossed with every atom index in the basis. -/
theorem claim_C3 (dim n_base cell_range : ℕ) (n : List ℤ) (c : List ℤ × ℕ)
    (hn : n.length = dim) :
    c ∈ Lattice.neighbour_range dim n_base n cell_range ↔
      (List.Forall₂
        (fun x nd => nd - ((cell_range : ℤ) + 2) ≤ x ∧
           x ≤ nd + ((cell_range : ℤ) + 2)) c.1 n) ∧ c.2 < n_base := by
  obtain ⟨v, alpha⟩ := c
  unfold Lattice.neighbour_range
  simp only [List.mem_flatMap, List.mem_map, List.mem_range, Prod.mk.injEq]
  have hmem : v ∈ vrange ((List.range dim).map fun d =>
      arange (n.getD d 0 - ((cell_range : ℤ) + 2))
        (n.getD d 0 + ((cell_range : ℤ) + 2) + 1)) ↔
      List.Forall₂ (fun x nd => nd - ((cell_range : ℤ) + 2) ≤ x ∧
        x ≤ nd + ((cell_range : ℤ) + 2)) v n := by
    rw [mem_vrange, List.forall₂_map_right_iff]
    constructor
    · intro h
      obtain ⟨hlen, hget⟩ := List.forall₂_iff_get.mp h
      rw [List.length_range] at hlen
      refine List.forall₂_iff_get.mpr ⟨by omega, fun i h1 h2 => ?_⟩
      have hq := hget i h1 (by rw [List.length_range]; omega)
      simp only [List.get_range] at hq
      rw [mem_arange, List.getD_eq_get n 0 h2] at hq
      exact ⟨by omega, by omega⟩
    · intro h
      obtain ⟨hlen, hget⟩ := List.forall₂_iff_get.mp h
      refine List.forall₂_iff_get.mpr
        ⟨by rw [List.length_range]; omega, fun i h1 h2 => ?_⟩
      rw [List.length_range] at h2
      have h2' : i < n.length := by omega
      have hq := hget i h1 h2'
      simp only [List.get_range]
      rw [mem_arange, List.getD_eq_get n 0 h2']
      exact ⟨by omega, by omega⟩
  constructor
  · rintro ⟨w, hw, a, ha, rfl, rfl⟩
    exact ⟨hmem.mp hw, ha⟩
  · rintro ⟨hf, ha⟩
    exact ⟨v, hmem.mpr hf, alpha, ha, rfl, rfl⟩

/-- Witness for C3 (amended) at `dim = 1`, one basis atom, origin `[0]`,
shell index `0`. -/
theorem claim_C3_witness :
    ([(2 : ℤ)], 0) ∈ Lattice.neighbour_range 1 1 [0] 0 ↔
      (List.Forall₂
        (fun x nd => nd - ((0 : ℤ) + 2) ≤ x ∧ x ≤ nd + ((0 : ℤ) + 2))
        [(2 : ℤ)] [0]) ∧ 0 < 1 :=
  claim_C3 1 1 0 [0] ([2], 0) rfl

/-- C1 fails as stated: with `num_shells = 1` on the unit chain, the stored
shell list is `[1, 2]` (two entries), not the first `1` entry `[1]` of the
ascending unique nonzero distance sequence. -/
theorem claim_C1_counterexample :
    Except.map Lattice.distances (chain_latt.calculate_distances (some 1)) =
        .ok [1, 2] ∧
      ((chain_latt.sorted_dists (n_expand 1)).erase 0).take 1 = [1] ∧
      ([1, 2] : List ℚ) ≠ [1] := by
  refine ⟨chain_calc_dists, ?_, by simp⟩
  rw [show n_expand 1 = 3 from rfl, chain_sorted, List.erase_cons_head]
  rfl

/-- C1 (amended): on success, the stored shell list consists of exactly the
first `max(num_shells, 2)` entries (the slice bound `max(num_shells + 1, 3)
- 1` of the source) of the ascending sequence of unique nonzero rounded
distances, no more and no fewer (hence of exactly the first `num_shells`
entries only when `num_shells ≥ 2`). -/
theorem claim_C1 {dim : ℕ} (l : Lattice dim) (num : ℕ) (ds : List ℚ)
    (h : Except.map Lattice.distances (l.calculate_distances (some num)) =
      .ok ds) :
    ds = ((l.sorted_dists (n_expand num)).erase 0).take (max num 2) := by
  cases hcd : l.calculate_distances (some num) with
  | error e =>
    rw [hcd] at h
    cases h
  | ok l' =>
    rw [hcd] at h
    simp only [Except.map] at h
    cases h
    have hds := calculate_distances_ok_distances hcd
    simp only [Option.getD_some] at hds
    rw [hds]
    congr 1
    unfold n_expand MIN_DISTS
    omega

/-- Witness for C1 (amended) on the unit chain with `num_shells = 1`. -/
theorem claim_C1_witness :
    ([1, 2] : List ℚ) =
      ((chain_latt.sorted_dists (n_expand 1)).erase 0).take (max 1 2) :=
  claim_C1 chain_latt 1 [1, 2] chain_calc_dists

/-- C6: after every successful call to `calculate_distances`, the stored
shell-distance list is strictly increasing, every entry is strictly
positive, and the zero distance never appears in it. -/
theorem claim_C6 {dim : ℕ} (l : Lattice dim) (num : Option ℕ) (ds : List ℚ)
    (h : Except.map Lattice.distances (l.calculate_distances num) = .ok ds) :
    ds.Pairwise (· < ·) ∧ (∀ q ∈ ds, 0 < q) ∧ (0 : ℚ) ∉ ds := by
  cases hcd : l.calculate_distances num with
  | error e =>
    rw [hcd] at h
    cases h
  | ok l' =>
    rw [hcd] at h
    simp only [Except.map] at h
    cases h
    obtain ⟨h1, h2⟩ := calculate_distances_ok_pairwise hcd
    exact ⟨h1, h2, fun h0 => lt_irrefl 0 (h2 0 h0)⟩

/-- Witness for C6 on the unit chain with `num_shells = 1`. -/
theorem claim_C6_witness :
    ([1, 2] : List ℚ).Pairwise (· < ·) ∧
      (∀ q ∈ ([1, 2] : List ℚ), 0 < q) ∧ (0 : ℚ) ∉ ([1, 2] : List ℚ) :=
  claim_C6 chain_latt (some 1) [1, 2] chain_calc_dists

/-- C9: for every well-formed lattice with a non-empty atomic basis, the
rounded pairwise distances computed inside `calculate_distances` contain the
value `0.0` (every basis atom is paired with its own image at the zero
translation vector), so the zero-removal step never fails and
`calculate_distances` never raises past its initial empty-basis check. -/
theorem claim_C9 {dim : ℕ} (l : Lattice dim) (num : Option ℕ)
    (hwf : l.Wf) (hne : l.atoms ≠ []) :
    (0 : ℚ) ∈ l.rounded_dists (n_expand (num.getD l.atoms.length)) ∧
      ∃ l', l.calculate_distances num = .ok l' :=
  ⟨zero_mem_rounded_dists hwf hne (by unfold n_expand MIN_DISTS; omega),
   calculate_distances_isOk num hwf hne⟩

/-- Witness for C9 on the unit chain with `num_shells = 1`. -/
theorem claim_C9_witness :
    (0 : ℚ) ∈ chain_latt.rounded_dists
        (n_expand ((some 1).getD chain_latt.atoms.length)) ∧
      ∃ l', chain_latt.calculate_distances (some 1) = .ok l' :=
  claim_C9 chain_latt (some 1) ⟨rfl, rfl⟩ (by decide)

/-- C7: calling `add_atom` with a position exactly equal to a position
already in the atomic basis raises a duplicate-position `ValueError` and
returns with the lattice state unchanged — the atom list, position list and
atom count are exactly as before the call, with no partial mutation. -/
theorem claim_C7 {dim : ℕ} (l : Lattice dim) (pos : Fin dim → ℚ)
    (atom : Atom) (neighbours : ℕ) (h : pos ∈ l.atom_positions) :
    l.add_atom pos atom neighbours =
      (l, .error (.valueError "Position already occupied!")) := by
  unfold Lattice.add_atom
  rw [if_pos h]

/-- Witness for C7: re-adding the origin atom of the unit chain fails and
leaves the state untouched. -/
theorem claim_C7_witness :
    chain_latt.add_atom (fun _ => 0) { name := "B" } 0 =
      (chain_latt, .error (.valueError "Position already occupied!")) :=
  claim_C7 chain_latt (fun _ => 0) { name := "B" } 0 (by decide)

/-- C8: `calculate_distances` raises a configuration error if and only if
the atomic basis is empty, and `get_neighbours` (likewise
`get_neighbour_vectors`) raises a configuration error if and only if the
neighbour table has not been built; in each case the error carries the
human-readable hint naming the missing setup step. -/
theorem claim_C8 {dim : ℕ} (l : Lattice dim) (num : Option ℕ) (idx : List ℤ)
    (k a : ℕ) (z : Bool) :
    ((∃ msg hint, l.calculate_distances num =
        .error (.configurationError msg hint)) ↔ l.atoms = []) ∧
    (l.atoms = [] → l.calculate_distances num =
      .error (.configurationError "No atoms found in the lattice!"
        "Use add_atom to add an Atom-object")) ∧
    ((∃ msg hint, (l.get_neighbours idx k).2 =
        .error (.configurationError msg hint)) ↔ l.base_neighbors = []) ∧
    (l.base_neighbors = [] → (l.get_neighbours idx k).2 =
      .error (.configurationError "Base neighbours not configured."
        "Use the neighbours keyword of add_atom or call calculate_distances after adding the atoms!")) ∧
    ((∃ msg hint, l.get_neighbour_vectors a k z =
        .error (.configurationError msg hint)) ↔ l.base_neighbors = []) ∧
    (l.base_neighbors = [] → l.get_neighbour_vectors a k z =
      .error (.configurationError "Base neighbours not configured."
        "Use the neighbours keyword of add_atom or call calculate_distances after adding the atoms!")) := by
  refine ⟨⟨?_, ?_⟩, ?_, ⟨?_, ?_⟩, ?_, ⟨?_, ?_⟩, ?_⟩
  · rintro ⟨msg, hint, hmh⟩
    by_contra hne
    unfold Lattice.calculate_distances at hmh
    rw [if_neg hne] at hmh
    dsimp only at hmh
    split at hmh
    · cases hmh
    · simp at hmh
  · intro he
    exact ⟨_, _, by unfold Lattice.calculate_distances; rw [if_pos he]⟩
  · intro he
    unfold Lattice.calculate_distances
    rw [if_pos he]
  · rintro ⟨msg, hint, hmh⟩
    by_contra hne
    unfold Lattice.get_neighbours at hmh
    rw [if_neg hne] at hmh
    cases hmh
  · intro he
    exact ⟨_, _, by unfold Lattice.get_neighbours; rw [if_pos he]⟩
  · intro he
    unfold Lattice.get_neighbours
    rw [if_pos he]
  · rintro ⟨msg, hint, hmh⟩
    by_contra hne
    unfold Lattice.get_neighbour_vectors at hmh
    rw [if_neg hne] at hmh
    cases hmh
  · intro he
    exact ⟨_, _, by unfold Lattice.get_neighbour_vectors; rw [if_pos he]⟩
  · intro he
    unfold Lattice.get_neighbour_vectors
    rw [if_pos he]

/-- Witness for C8 on an empty chain lattice: all three operations raise
the configuration errors with their hints. -/
theorem claim_C8_witness :
    empty_chain_latt.calculate_distances (some 1) =
      .error (.configurationError "No atoms found in the lattice!"
        "Use add_atom to add an Atom-object") ∧
    (empty_chain_latt.get_neighbours [0, 0] 0).2 =
      .error (.configurationError "Base neighbours not configured."
        "Use the neighbours keyword of add_atom or call calculate_distances after adding the atoms!") ∧
    empty_chain_latt.get_neighbour_vectors 0 0 false =
      .error (.configurationError "Base neighbours not configured."
        "Use the neighbours keyword of add_atom or call calculate_distances after adding the atoms!") :=
  ⟨(claim_C8 empty_chain_latt (some 1) [0, 0] 0 0 false).2.1 rfl,
   (claim_C8 empty_chain_latt (some 1) [0, 0] 0 0 false).2.2.2.1 rfl,
   (claim_C8 empty_chain_latt (some 1) [0, 0] 0 0 false).2.2.2.2.2 rfl⟩

/-- C5: for the chain, square, rectangular, and hexagonal lattices,
`reciprocal_lattice().reciprocal_vectors()` yields the original direct basis
vectors (the reciprocal of the reciprocal lattice is the direct lattice). -/
theorem claim_C5 (a a1 a2 : ℝ) (ha : 0 < a) (ha1 : 0 < a1) (ha2 : 0 < a2) :
    reciprocal_vectors (reciprocal_lattice_vectors (chain_vectors a)) =
        chain_vectors a ∧
      reciprocal_vectors (reciprocal_lattice_vectors (square_vectors a)) =
        square_vectors a ∧
      reciprocal_vectors
          (reciprocal_lattice_vectors (rectangular_vectors a1 a2)) =
        rectangular_vectors a1 a2 ∧
      reciprocal_vectors (reciprocal_lattice_vectors (hexagonal_vectors a)) =
        hexagonal_vectors a := by
  have hrl : ∀ (d : ℕ) (M : Matrix (Fin d) (Fin d) ℝ),
      reciprocal_lattice_vectors M = reciprocal_vectors M := by
    intro d M
    unfold reciprocal_lattice_vectors mk_vectors
    exact Matrix.transpose_transpose _
  refine ⟨?_, ?_, ?_, ?_⟩
  · rw [hrl]
    apply double_reciprocal_fin_one
    unfold chain_vectors mk_vectors
    simpa [Matrix.transpose_apply] using ha
  · rw [hrl]
    apply double_reciprocal_fin_two
    unfold square_vectors mk_vectors
    rw [Matrix.det_transpose, Matrix.det_fin_two]
    simp only [Matrix.of_apply, Matrix.cons_val', Matrix.cons_val_zero,
      Matrix.cons_val_one, Matrix.head_cons, Matrix.head_fin_const,
      Matrix.empty_val', Matrix.cons_val_fin_one]
    intro heq
    have : a * a ≠ 0 := mul_ne_zero (ne_of_gt ha) (ne_of_gt ha)
    apply this
    linarith
  · rw [hrl]
    apply double_reciprocal_fin_two
    unfold rectangular_vectors mk_vectors
    rw [Matrix.det_transpose, Matrix.det_fin_two]
    simp only [Matrix.of_apply, Matrix.cons_val', Matrix.cons_val_zero,
      Matrix.cons_val_one, Matrix.head_cons, Matrix.head_fin_const,
      Matrix.empty_val', Matrix.cons_val_fin_one]
    intro heq
    have : a1 * a2 ≠ 0 := mul_ne_zero (ne_of_gt ha1) (ne_of_gt ha2)
    apply this
    linarith
  · rw [hrl]
    apply double_reciprocal_fin_two
    have hdet : (hexagonal_vectors a).det =
        (a / 2) ^ 2 * (3 * -Real.sqrt 3 - Real.sqrt 3 * 3) := by
      unfold hexagonal_vectors mk_vectors
      rw [Matrix.det_transpose, Matrix.det_smul, Matrix.det_fin_two]
      simp [Fintype.card_fin]
    rw [hdet]
    have hs : 0 < Real.sqrt 3 := Real.sqrt_pos.mpr (by norm_num)
    have hneg : (a / 2) ^ 2 * (3 * -Real.sqrt 3 - Real.sqrt 3 * 3) < 0 :=
      mul_neg_of_pos_of_neg (by positivity) (by nlinarith)
    exact ne_of_lt hneg

/-- Witness for C5 at `a = 1`, `a1 = 2`, `a2 = 1` (the unit chain and square,
the 2×1 rectangular lattice, and the unit hexagonal lattice). -/
theorem claim_C5_witness :
    reciprocal_vectors (reciprocal_lattice_vectors (chain_vectors 1)) =
        chain_vectors 1 ∧
      reciprocal_vectors (reciprocal_lattice_vectors (square_vectors 1)) =
        square_vectors 1 ∧
      reciprocal_vectors
          (reciprocal_lattice_vectors (rectangular_vectors 2 1)) =
        rectangular_vectors 2 1 ∧
      reciprocal_vectors (reciprocal_lattice_vectors (hexagonal_vectors 1)) =
        hexagonal_vectors 1 :=
  claim_C5 1 2 1 one_pos two_pos one_pos

/-- C10: `get_neighbours` copies each stored neighbour entry before adding
the caller's translation offset: the cached neighbour table (indeed the
whole lattice state) is unchanged by the call, and a repeated call with the
same index and shell index on the resulting state returns the same result. -/
theorem claim_C10 {dim : ℕ} (l : Lattice dim) (idx : List ℤ) (k : ℕ) :
    (l.get_neighbours idx k).1 = l ∧
      ((l.get_neighbours idx k).1.get_neighbours idx k).2 =
        (l.get_neighbours idx k).2 := by
  have h1 : (l.get_neighbours idx k).1 = l := by
    unfold Lattice.get_neighbours
    split
    · rfl
    · rfl
  exact ⟨h1, by rw [h1]⟩

end LattPy
